import Mathlib

/-!
# Verification of the daily-go repository/commit aggregation pipeline

This file is a shallow embedding, in Lean 4, of the core logic of the
`daily-go` tool: repository activity filtering (`GetRecentlyUpdatedRepos`),
multi-branch commit aggregation with de-duplication
(`GetCommitsFromAllBranches`, `GetCommitsForRepoByDay`), commit retrieval
(`GetLatestCommits`), the repository activity report
(`GetRepositoriesWithRecentCommits` / `hasCommitsSince`), and prompt
construction plus response handling of the summary generator
(`GenerateSummary`).

Modelling conventions, shared by all embeddings below:

* Instants (`time.Time`) are seconds since the Unix epoch, as `Int`.  The
  process-local time zone is modelled as a fixed-offset zone with offset 0
  (no daylight-saving transitions), so `AddDate(0, 0, n)` shifts an instant
  by exactly `n * 86400` seconds, and midnight of the civil day containing
  `t` is `86400 * (t / 86400)` (Lean's `Int` division is floored for a
  positive divisor).
* HTTP calls are modelled by explicit environment records: a field of the
  environment holds the decoded result of the corresponding remote call,
  `Except String` for calls whose failure the code observes (`.error`
  covers request-construction, transport, body-read and JSON-decode
  failures, which the Go code treats uniformly), `Option` where a missing
  result makes the code skip the unit.
* Go's `map` type has no iteration-order guarantee (iteration order is
  randomized per run).  Wherever the source iterates a map, the embedding
  takes the iteration order as an explicit parameter, constrained in the
  theorems to be a permutation of the entries.
* A Go runtime panic (out-of-range slice) is modelled as `Option.none`.
-/

set_option maxRecDepth 4000

/-- One civil day in seconds. -/
def secondsPerDay : Int := 86400

/-- `time.Time.AddDate(0, 0, n)` under the fixed-offset time-zone model:
adding `n` calendar days shifts the instant by `n` whole days. -/
def addDays (t : Int) (n : Int) : Int := t + n * secondsPerDay

/-- `time.Date(t.Year(), t.Month(), t.Day(), 0, 0, 0, 0, t.Location())`
under the fixed-offset model: midnight of the civil day containing `t`. -/
def startOfDay (t : Int) : Int := secondsPerDay * (t / secondsPerDay)

/-- `time.Weekday` (Go numbers Sunday = 0 through Saturday = 6). -/
inductive Weekday where
  | sunday
  | monday
  | tuesday
  | wednesday
  | thursday
  | friday
  | saturday
deriving Repr, DecidableEq

/-- `time.Time.Weekday()`: 1970-01-01 (epoch day 0) was a Thursday, so the
weekday index of an instant is `(days since epoch + 4) mod 7` in Go's
Sunday-based numbering. -/
def weekdayOf (t : Int) : Weekday :=
  let w := (t / secondsPerDay + 4) % 7
  if w = 0 then .sunday
  else if w = 1 then .monday
  else if w = 2 then .tuesday
  else if w = 3 then .wednesday
  else if w = 4 then .thursday
  else if w = 5 then .friday
  else .saturday

/-- Decimal digit character (used by the date renderer). -/
def digitChar : Nat → Char
  | 0 => '0'
  | 1 => '1'
  | 2 => '2'
  | 3 => '3'
  | 4 => '4'
  | 5 => '5'
  | 6 => '6'
  | 7 => '7'
  | 8 => '8'
  | _ => '9'

/-- Decimal rendering of a natural number (fuel-structured so the kernel
can evaluate it; the fuel `n + 1` bounds the digit count). -/
def natToCharsAux : Nat → Nat → List Char
  | 0, _ => []
  | f + 1, n => if n < 10 then [digitChar n] else natToCharsAux f (n / 10) ++ [digitChar (n % 10)]

def natToStr (n : Nat) : String := ⟨natToCharsAux (n + 1) n⟩

def intToStr (i : Int) : String :=
  if i < 0 then "-" ++ natToStr i.natAbs else natToStr i.natAbs

/-- Zero-padded two-digit rendering, as in Go's `01`/`02`/`15`/`04`
format verbs. -/
def pad2 (i : Int) : String :=
  if i < 10 then "0" ++ intToStr i else intToStr i

/-- Civil date (year, month, day) of a day number counted from 1970-01-01,
proleptic Gregorian calendar (the standard days-to-civil conversion, which
is what Go's `time` package computes for a zero-offset location). -/
def civilFromDays (z0 : Int) : Int × Int × Int :=
  let z := z0 + 719468
  let era : Int := (if 0 ≤ z then z else z - 146096) / 146097
  let doe : Int := z - era * 146097
  let yoe : Int := (doe - doe / 1460 + doe / 36524 - doe / 146096) / 365
  let y : Int := yoe + era * 400
  let doy : Int := doe - (365 * yoe + yoe / 4 - yoe / 100)
  let mp : Int := (5 * doy + 2) / 153
  let d : Int := doy - (153 * mp + 2) / 5 + 1
  let m : Int := if mp < 10 then mp + 3 else mp - 9
  (if m ≤ 2 then y + 1 else y, m, d)

/-- Go's `t.Format("2006-01-02 15:04")` under the fixed-offset model. -/
def fmtDateMinute (t : Int) : String :=
  let days := t / secondsPerDay
  let sod := t % secondsPerDay
  let c := civilFromDays days
  intToStr c.1 ++ "-" ++ pad2 c.2.1 ++ "-" ++ pad2 c.2.2 ++ " " ++
    pad2 (sod / 3600) ++ ":" ++ pad2 (sod % 3600 / 60)

/-! ## Package `main` (src/github.go, src/llm.go, commit/Gemini types)

Namespace `App` embeds the `main` package variant: the `Repo` struct and
`GetRecentlyUpdatedRepos` / `GetLatestCommits` from `src/github.go`, the
commit and Gemini wire types, and `LLMService.GenerateSummary` from
`src/llm.go`. -/

namespace App

/-- `Repo` (src/github.go). Timestamps are modelled instants. -/
structure Repo where
  id : Int
  name : String
  isPrivate : Bool
  htmlURL : String
  url : String
  language : String
  createdAt : Int
  updatedAt : Int
deriving Repr, DecidableEq

/-- The `GitHub` receiver: credentials plus the repository list loaded at
construction time. `GetRecentlyUpdatedRepos` only reads `repos` and never
assigns to it, so the embedding is a pure function of the receiver. -/
structure GitHub where
  username : String
  apiKey : String
  repos : List Repo
deriving Repr, DecidableEq

/-- `GitHub.GetRecentlyUpdatedRepos` (src/github.go lines 108-124).
`now` stands for the `time.Now()` sample taken inside the function. -/
def GetRecentlyUpdatedRepos (gh : GitHub) (daysBack : Int) (now : Int) : List Repo :=
  if daysBack ≤ 0 then gh.repos
  else
    let cutoffDate := addDays now (-daysBack)
    gh.repos.filter (fun repo => decide (cutoffDate < repo.updatedAt))

end App

/-! ### Claims C2 and C10: the activity filter -/

/-- Helper: filtering twice with the same predicate is the same as
filtering once. -/
theorem App.filter_idem {α : Type} (p : α → Bool) (l : List α) :
    (l.filter p).filter p = l.filter p := by
  induction l with
  | nil => rfl
  | cons a l ih =>
    cases h : p a <;> simp [List.filter_cons, h, ih]

/-- Claim C2: for a positive `daysBack` (the only regime in which the code
computes a cutoff), `GetRecentlyUpdatedRepos` returns exactly the
subsequence of the stored repositories whose last-update timestamp is
strictly after the cutoff `now - daysBack` days, preserving relative order
(`Sublist`), and reapplying the filter to its own output with the same
cutoff returns that output unchanged.  The embedding is a pure function of
the receiver — the source never assigns to `gh.repos` — so the input
sequence is not mutated. -/
theorem getRecentlyUpdatedRepos_filter_spec (gh : App.GitHub) (daysBack now : Int)
    (h : 0 < daysBack) :
    App.GetRecentlyUpdatedRepos gh daysBack now
      = gh.repos.filter (fun repo => decide (addDays now (-daysBack) < repo.updatedAt))
    ∧ (App.GetRecentlyUpdatedRepos gh daysBack now).Sublist gh.repos
    ∧ App.GetRecentlyUpdatedRepos
        { gh with repos := App.GetRecentlyUpdatedRepos gh daysBack now } daysBack now
      = App.GetRecentlyUpdatedRepos gh daysBack now := by
  have hn : ¬ daysBack ≤ 0 := not_le.mpr h
  refine ⟨?_, ?_, ?_⟩
  · simp [App.GetRecentlyUpdatedRepos, hn]
  · simp only [App.GetRecentlyUpdatedRepos, hn, if_false]
    exact List.filter_sublist _
  · simp only [App.GetRecentlyUpdatedRepos, hn, if_false]
    exact App.filter_idem _ _

/-- Concrete instance of claim C2: one recent and one stale repository,
cutoff 7 days before `now = 10 * 86400`. -/
def App.repoRecent : App.Repo :=
  { id := 1, name := "fresh", isPrivate := false, htmlURL := "", url := "",
    language := "Go", createdAt := 0, updatedAt := 9 * 86400 }

def App.repoStale : App.Repo :=
  { id := 2, name := "old", isPrivate := false, htmlURL := "", url := "",
    language := "Go", createdAt := 0, updatedAt := 86400 }

def App.ghSample : App.GitHub :=
  { username := "u", apiKey := "k", repos := [App.repoRecent, App.repoStale] }

theorem getRecentlyUpdatedRepos_filter_spec_witness :
    App.GetRecentlyUpdatedRepos App.ghSample 7 (10 * 86400)
      = App.ghSample.repos.filter
          (fun repo => decide (addDays (10 * 86400) (-7) < repo.updatedAt))
    ∧ (App.GetRecentlyUpdatedRepos App.ghSample 7 (10 * 86400)).Sublist App.ghSample.repos
    ∧ App.GetRecentlyUpdatedRepos
        { App.ghSample with repos := App.GetRecentlyUpdatedRepos App.ghSample 7 (10 * 86400) }
        7 (10 * 86400)
      = App.GetRecentlyUpdatedRepos App.ghSample 7 (10 * 86400) :=
  getRecentlyUpdatedRepos_filter_spec App.ghSample 7 (10 * 86400) (by decide)

/-- Claim C10: for every `daysBack ≤ 0`, `GetRecentlyUpdatedRepos` returns
the entire stored repository list unfiltered, regardless of any
last-update timestamp. -/
theorem getRecentlyUpdatedRepos_nonpositive_daysBack (gh : App.GitHub) (daysBack now : Int)
    (h : daysBack ≤ 0) :
    App.GetRecentlyUpdatedRepos gh daysBack now = gh.repos := by
  simp [App.GetRecentlyUpdatedRepos, h]

theorem getRecentlyUpdatedRepos_nonpositive_daysBack_witness :
    App.GetRecentlyUpdatedRepos App.ghSample 0 (10 * 86400) = App.ghSample.repos :=
  getRecentlyUpdatedRepos_nonpositive_daysBack App.ghSample 0 (10 * 86400) (by decide)

/-! ## Commit wire types of package `main` (src/unnamed/part_009) and
`GetLatestCommits` (src/github.go lines 142-199) -/

namespace App

/-- The anonymous `*struct{ Login string }` in `CommitResponse.Author`. -/
structure RespUser where
  login : String
deriving Repr, DecidableEq

structure CommitMessage where
  message : String
deriving Repr, DecidableEq

/-- `CommitAuthor`. On the wire `date` is an RFC3339 string which
`GetLatestCommits` parses with `time.Parse` (ignoring the error); the
embedding models HTTP decode and date parse as one step, so the field
already holds the decoded instant. -/
structure CommitAuthor where
  name : String
  email : String
  date : Int
deriving Repr, DecidableEq

structure CommitDetails where
  message : CommitMessage
  author : CommitAuthor
deriving Repr, DecidableEq

structure CommitResponse where
  sha : String
  commit : CommitDetails
  htmlURL : String
  author : Option RespUser
deriving Repr, DecidableEq

/-- `Commit` (the display/summary record of package `main`). -/
structure Commit where
  sha : String
  message : String
  author : String
  date : Int
  repoName : String
  htmlURL : String
deriving Repr, DecidableEq

/-- `pat` is a prefix of `s` (character lists). -/
def charsStartWith : List Char → List Char → Bool
  | [], _ => true
  | _ :: _, [] => false
  | p :: ps, c :: cs => p == c && charsStartWith ps cs

/-- Longest prefix of `s` before the first occurrence of `sep`
(`s` itself when `sep` does not occur). -/
def charsBeforeSep (sep : List Char) : List Char → List Char
  | [] => []
  | c :: rest =>
    if charsStartWith sep (c :: rest) then []
    else c :: charsBeforeSep sep rest

/-- `strings.Split(choice, " (")[0]`: `GetLatestCommits` recovers the
repository name from a rendered choice label by taking everything before
the first `" ("`. -/
def extractRepoName (choice : String) : String :=
  ⟨charsBeforeSep " (".data choice.data⟩

/-- `c.SHA[:8]`: Go slices the first 8 bytes of the commit identifier with
no length guard; for an identifier shorter than 8 this is a runtime panic
(`slice bounds out of range`), modelled as `none`. -/
def shortSha (s : String) : Option String :=
  if s.length < 8 then none else some (s.take 8)

/-- The per-commit record construction inside `GetLatestCommits`
(src/github.go lines 180-196); `none` is the panic from `c.SHA[:8]`. -/
def mkLatestCommit (name : String) (c : CommitResponse) : Option Commit := do
  let sha8 ← shortSha c.sha
  pure { sha := sha8
         message := c.commit.message.message
         author := match c.author with
           | some a => a.login
           | none => c.commit.author.name
         date := c.commit.author.date
         repoName := name
         htmlURL := c.htmlURL }

/-- The inner `for _, c := range commits` loop of `GetLatestCommits`:
builds one record per response entry, in order; a panic (`none`) at any
entry aborts the whole call, exactly as a Go panic would. -/
def buildLatestCommits (name : String) : List CommitResponse → Option (List Commit)
  | [] => some []
  | c :: cs => do
    let commit ← mkLatestCommit name c
    let rest ← buildLatestCommits name cs
    pure (commit :: rest)

/-- The repository loop of `GetLatestCommits`.  `fetch name` is the decoded
response of the commit-list request for repository `name` (`none` models
any of the per-repository failures — request construction, transport,
body read, JSON decode — all of which make the Go code `continue` to the
next repository).  The result is `none` exactly when some processed commit
record panics in `mkLatestCommit`. -/
def getLatestCommitsLoop (fetch : String → Option (List CommitResponse)) :
    List String → List Commit → Option (List Commit)
  | [], allCommits => some allCommits
  | choice :: rest, allCommits =>
    let name := extractRepoName choice
    match fetch name with
    | none => getLatestCommitsLoop fetch rest allCommits
    | some commits =>
      match buildLatestCommits name commits with
      | none => none
      | some newCommits => getLatestCommitsLoop fetch rest (allCommits ++ newCommits)

/-- `GitHub.GetLatestCommits` (src/github.go lines 142-199): `some cs`
models the Go return `(cs, nil)` — the function never returns a non-nil
error — and `none` models a panic escaping the function. -/
def GetLatestCommits (fetch : String → Option (List CommitResponse))
    (repoNames : List String) : Option (List Commit) :=
  getLatestCommitsLoop fetch repoNames []

end App

/-! ### Claim C9: unguarded `c.SHA[:8]` in `GetLatestCommits` -/

/-- Helper: when every decoded identifier has length at least 8, the
per-commit mapping never panics. -/
theorem App.buildLatestCommits_isSome (name : String) (rs : List App.CommitResponse)
    (h : ∀ c ∈ rs, 8 ≤ c.sha.length) :
    (App.buildLatestCommits name rs).isSome := by
  induction rs with
  | nil => simp [App.buildLatestCommits]
  | cons c cs ih =>
    have hlen : ¬ c.sha.length < 8 := not_lt.mpr (h c (by simp))
    have hc : App.mkLatestCommit name c
        = some { sha := c.sha.take 8
                 message := c.commit.message.message
                 author := match c.author with
                   | some a => a.login
                   | none => c.commit.author.name
                 date := c.commit.author.date
                 repoName := name
                 htmlURL := c.htmlURL } := by
      simp [App.mkLatestCommit, App.shortSha, hlen]
    have hcs := ih (fun x hx => h x (by simp [hx]))
    obtain ⟨l, hl⟩ := Option.isSome_iff_exists.mp hcs
    simp [App.buildLatestCommits, hc, hl]

/-- Helper: the repository loop returns normally whenever every decoded
identifier in every successful fetch has length at least 8. -/
theorem App.getLatestCommitsLoop_isSome (fetch : String → Option (List App.CommitResponse))
    (hf : ∀ name rs, fetch name = some rs → ∀ c ∈ rs, 8 ≤ c.sha.length) :
    ∀ (repoNames : List String) (acc : List App.Commit),
      (App.getLatestCommitsLoop fetch repoNames acc).isSome := by
  intro repoNames
  induction repoNames with
  | nil => intro acc; simp [App.getLatestCommitsLoop]
  | cons choice rest ih =>
    intro acc
    cases hfetch : fetch (App.extractRepoName choice) with
    | none => simpa [App.getLatestCommitsLoop, hfetch] using ih acc
    | some commits =>
      have hsome := App.buildLatestCommits_isSome (App.extractRepoName choice) commits
        (hf _ _ hfetch)
      obtain ⟨l, hl⟩ := Option.isSome_iff_exists.mp hsome
      simpa [App.getLatestCommitsLoop, hfetch, hl] using ih (acc ++ l)

/-- A decoded commit whose identifier has only 3 characters. -/
def App.respShort : App.CommitResponse :=
  { sha := "abc"
    commit := { message := { message := "short id" }
                author := { name := "a", email := "e", date := 0 } }
    htmlURL := ""
    author := none }

def App.fetchShortSha : String → Option (List App.CommitResponse) :=
  fun _ => some [App.respShort]

def App.respGood : App.CommitResponse :=
  { sha := "deadbeef0123456789"
    commit := { message := { message := "ok" }
                author := { name := "a", email := "e", date := 0 } }
    htmlURL := ""
    author := none }

def App.goodFetch : String → Option (List App.CommitResponse) :=
  fun _ => some [App.respGood]

/-- Claim C9: `GetLatestCommits` builds each record's short identifier by
unguarded slicing `c.SHA[:8]`.  It returns normally (`isSome`) under the
precondition that every decoded commit identifier in every successful
response has length at least 8; and on an input containing a 3-character
identifier it panics (modelled `none`) rather than returning an error —
the Go function's error result is always `nil`. -/
theorem getLatestCommits_shortSha_safety :
    (∀ (fetch : String → Option (List App.CommitResponse)) (repoNames : List String),
        (∀ name rs, fetch name = some rs → ∀ c ∈ rs, 8 ≤ c.sha.length) →
        (App.GetLatestCommits fetch repoNames).isSome)
    ∧ App.GetLatestCommits App.fetchShortSha ["badrepo (Go) - Updated: 2024-01-01"] = none := by
  constructor
  · intro fetch repoNames hf
    exact App.getLatestCommitsLoop_isSome fetch hf repoNames []
  · rfl

theorem getLatestCommits_shortSha_safety_witness :
    (App.GetLatestCommits App.goodFetch ["fresh (Go) - Updated: 2024-01-01"]).isSome :=
  getLatestCommits_shortSha_safety.1 App.goodFetch ["fresh (Go) - Updated: 2024-01-01"]
    (by
      intro name rs h c hc
      cases h
      simp only [List.mem_singleton] at hc
      subst hc
      decide)

/-! ## Summary generator (src/llm.go) and Gemini wire types
(src/unnamed/part_009) -/

namespace App

structure GeminiPart where
  text : String
deriving Repr, DecidableEq

structure GeminiContent where
  parts : List GeminiPart
deriving Repr, DecidableEq

structure GeminiRequest where
  contents : List GeminiContent
deriving Repr, DecidableEq

structure GeminiCandidate where
  content : GeminiContent
deriving Repr, DecidableEq

structure GeminiResponse where
  candidates : List GeminiCandidate
deriving Repr, DecidableEq

/-- One step of building the `repoCommits` Go map:
`repoCommits[commit.RepoName] = append(repoCommits[commit.RepoName], commit)`.
The map is modelled as an association list whose entry *contents* follow
Go's semantics exactly (append to the existing slice for the key, fresh
singleton for a new key); the entry *positions* in the association list
record first-appearance order, which the Go map does NOT expose — see
`GenerateSummary`'s iteration-order parameter. -/
def insertGrouped (m : List (String × List Commit)) (c : Commit) :
    List (String × List Commit) :=
  match m with
  | [] => [(c.repoName, [c])]
  | (k, v) :: rest =>
    if k = c.repoName then (k, v ++ [c]) :: rest
    else (k, v) :: insertGrouped rest c

/-- The grouping loop of `GenerateSummary` (src/llm.go lines 32-35). -/
def groupByRepo (commits : List Commit) : List (String × List Commit) :=
  commits.foldl insertGrouped []

/-- One `- SHA: message (by author on date)` digest line
(src/llm.go lines 40-41). -/
def commitLine (c : Commit) : String :=
  "- " ++ c.sha ++ ": " ++ c.message ++ " (by " ++ c.author ++ " on "
    ++ fmtDateMinute c.date ++ ")\n"

/-- One repository group of the digest: header, one line per commit,
blank line (src/llm.go lines 37-44). -/
def repoBlock (e : String × List Commit) : String :=
  "Repository: " ++ e.1 ++ "\n" ++ String.join (e.2.map commitLine) ++ "\n"

/-- The full digest for the given sequence of map entries
(src/llm.go lines 28-44). -/
def commitDetailsFor (entries : List (String × List Commit)) : String :=
  "Recent commits summary:\n\n" ++ String.join (entries.map repoBlock)

/-- The instruction template wrapped around the digest
(src/llm.go lines 47-53; the first two template lines end in a space,
as in the source). -/
def promptFor (entries : List (String × List Commit)) : String :=
  "Please provide a concise summary of the following recent commits for a daily standup or meeting. \nFocus on the most important changes, new features, bug fixes, and any breaking changes. \nGroup by repository and highlight key achievements:\n\n"
    ++ commitDetailsFor entries
    ++ "\n\nPlease format the response as a professional summary suitable for a team meeting."

/-- The JSON request body `{contents: [{parts: [{text: prompt}]}]}`
(src/llm.go lines 56-64); `json.Marshal` cannot fail on these types. -/
def requestFor (entries : List (String × List Commit)) : GeminiRequest :=
  { contents := [{ parts := [{ text := promptFor entries }] }] }

/-- `LLMService.GenerateSummary` (src/llm.go lines 22-101).

* `net` models the HTTP POST to the generative endpoint plus body read and
  JSON decode: `.error` covers every failure path the Go code propagates
  (`return "", err`), `.ok` is the decoded `GeminiResponse`.
* `mapOrder` models Go's randomized map iteration over `repoCommits`: the
  order in which `for repoName, repoCommits := range repoCommits` visits
  the entries.  Any permutation of the entries is a possible run.
* The final guard is the source's
  `len(Candidates) > 0 && len(Candidates[0].Content.Parts) > 0`. -/
def GenerateSummary (net : GeminiRequest → Except String GeminiResponse)
    (mapOrder : List (String × List Commit) → List (String × List Commit))
    (commits : List Commit) : Except String String :=
  if commits.length = 0 then
    .ok "No commits found in the specified time period."
  else
    match net (requestFor (mapOrder (groupByRepo commits))) with
    | .error e => .error e
    | .ok resp =>
      match resp.candidates with
      | [] => .ok "Unable to generate summary at this time."
      | c0 :: _ =>
        match c0.content.parts with
        | [] => .ok "Unable to generate summary at this time."
        | p0 :: _ => .ok p0.text

/-- First-appearance order of a list of names, as the specification words
it ("grouping order is insertion order of first appearance").  This
definition follows the spec's words and is compared against the
source-derived `groupByRepo`. -/
def specFirstSeenOrder (names : List String) : List String :=
  names.foldl (fun acc n => if n ∈ acc then acc else acc ++ [n]) []

end App

/-! ### Claim C4: empty commit list -/

/-- Claim C4: on an empty commit list `GenerateSummary` returns exactly
`"No commits found in the specified time period."` with a nil error
(`.ok`).  The result is the same for *every* network oracle `net` and
every map iteration order — the function returns before any request is
built or sent, which is the no-network-call part of the claim. -/
theorem generateSummary_empty (net : App.GeminiRequest → Except String App.GeminiResponse)
    (mapOrder : List (String × List App.Commit) → List (String × List App.Commit)) :
    App.GenerateSummary net mapOrder []
      = .ok "No commits found in the specified time period." := rfl

/-! ### Claim C5: zero candidates / empty candidate handling -/

def App.commitAlpha : App.Commit :=
  { sha := "aaaa1111", message := "add parser", author := "ann", date := 0,
    repoName := "alpha", htmlURL := "" }

def App.commitBeta : App.Commit :=
  { sha := "bbbb2222", message := "fix build", author := "bob", date := 3661 * 60,
    repoName := "beta", htmlURL := "" }

def App.commitsOne : List App.Commit := [App.commitAlpha]

/-- A stub endpoint whose response decodes with one candidate whose first
(and only) part holds the empty string. -/
def App.netEmptyText : App.GeminiRequest → Except String App.GeminiResponse :=
  fun _ => .ok { candidates := [{ content := { parts := [{ text := "" }] } }] }

/-- A stub endpoint whose response decodes with zero candidates. -/
def App.netZeroCandidates : App.GeminiRequest → Except String App.GeminiResponse :=
  fun _ => .ok { candidates := [] }

/-- Counterexample to claim C5 as stated: on the non-empty commit list
`commitsOne`, a response that decodes successfully whose first candidate's
text is the *empty string* (one part, text `""`) makes `GenerateSummary`
return `.ok ""` — the empty text is passed through — and not the fallback
string the claim requires.  The guard in src/llm.go line 96 checks that
the parts list is non-empty, not that the text is non-empty. -/
theorem generateSummary_emptyText_counterexample :
    App.GenerateSummary App.netEmptyText id App.commitsOne = .ok ""
    ∧ App.GenerateSummary App.netEmptyText id App.commitsOne
        ≠ .ok "Unable to generate summary at this time." := by
  refine ⟨rfl, ?_⟩
  intro h
  rw [show App.GenerateSummary App.netEmptyText id App.commitsOne
        = (.ok "" : Except String String) from rfl] at h
  exact absurd (Except.ok.inj h) (by decide)

/-- Claim C5 amended: for every non-empty commit list, if the endpoint's
response decodes successfully but contains zero candidates, or the first
candidate's content contains zero parts, then `GenerateSummary` returns
exactly `.ok "Unable to generate summary at this time."` (a nil error).
(A present first part whose text is the empty string is instead returned
as-is — see the counterexample.) -/
theorem generateSummary_fallback
    (net : App.GeminiRequest → Except String App.GeminiResponse)
    (mapOrder : List (String × List App.Commit) → List (String × List App.Commit))
    (commits : List App.Commit) (hne : commits ≠ [])
    (resp : App.GeminiResponse)
    (hnet : net (App.requestFor (mapOrder (App.groupByRepo commits))) = .ok resp)
    (hcand : resp.candidates = []
      ∨ ∃ c0 rest, resp.candidates = c0 :: rest ∧ c0.content.parts = []) :
    App.GenerateSummary net mapOrder commits
      = .ok "Unable to generate summary at this time." := by
  have hlen : ¬ commits.length = 0 := by
    simpa [List.length_eq_zero] using hne
  unfold App.GenerateSummary
  rw [if_neg hlen]
  rcases hcand with hnil | ⟨c0, rest, hcons, hparts⟩
  · simp [hnet, hnil]
  · simp [hnet, hcons, hparts]

theorem generateSummary_fallback_witness :
    App.GenerateSummary App.netZeroCandidates id App.commitsOne
      = .ok "Unable to generate summary at this time." :=
  generateSummary_fallback App.netZeroCandidates id App.commitsOne
    (by simp [App.commitsOne]) { candidates := [] } rfl (Or.inl rfl)

/-! ### Claim C8: digest grouping order -/

namespace App

/-- Read access to the modelled `repoCommits` map: the entry stored under
key `r`, if any. -/
def findGroup (m : List (String × List Commit)) (r : String) : Option (List Commit) :=
  match m with
  | [] => none
  | (k, v) :: rest => if k = r then some v else findGroup rest r

end App

/-- Helper: inserting a commit updates exactly its repository's entry,
appending the commit at the end of that entry. -/
theorem App.findGroup_insertGrouped_self (m : List (String × List App.Commit))
    (c : App.Commit) :
    App.findGroup (App.insertGrouped m c) c.repoName
      = some ((App.findGroup m c.repoName).getD [] ++ [c]) := by
  induction m with
  | nil => simp [App.insertGrouped, App.findGroup]
  | cons kv rest ih =>
    obtain ⟨k, v⟩ := kv
    by_cases hk : k = c.repoName
    · subst hk
      simp [App.insertGrouped, App.findGroup]
    · simp [App.insertGrouped, App.findGroup, hk, ih]

/-- Helper: inserting a commit leaves every other key's entry unchanged. -/
theorem App.findGroup_insertGrouped_other (m : List (String × List App.Commit))
    (c : App.Commit) (r : String) (hr : r ≠ c.repoName) :
    App.findGroup (App.insertGrouped m c) r = App.findGroup m r := by
  induction m with
  | nil => simp [App.insertGrouped, App.findGroup, Ne.symm hr]
  | cons kv rest ih =>
    obtain ⟨k, v⟩ := kv
    by_cases hk : k = c.repoName
    · subst hk
      simp [App.insertGrouped, App.findGroup, Ne.symm hr]
    · by_cases hkr : k = r
      · subst hkr
        simp [App.insertGrouped, App.findGroup, hk]
      · simp [App.insertGrouped, App.findGroup, hk, hkr, ih]

/-- Helper: the grouping fold stores, under each key, exactly that
repository's commits in input order (appended after whatever the
accumulator already held for the key). -/
theorem App.groupByRepo_loop_find (r : String) (commits : List App.Commit) :
    ∀ m, (App.findGroup (commits.foldl App.insertGrouped m) r).getD []
      = (App.findGroup m r).getD [] ++ commits.filter (fun c => decide (c.repoName = r)) := by
  induction commits with
  | nil => intro m; simp
  | cons c cs ih =>
    intro m
    simp only [List.foldl_cons]
    rw [ih (App.insertGrouped m c)]
    by_cases hcr : c.repoName = r
    · subst hcr
      rw [App.findGroup_insertGrouped_self]
      simp [List.filter_cons]
    · rw [App.findGroup_insertGrouped_other m c r (Ne.symm hcr)]
      simp [List.filter_cons, hcr]

/-- Helper: inserting a commit either leaves the key sequence unchanged
(key already present) or appends the new key at the end. -/
theorem App.insertGrouped_keys (m : List (String × List App.Commit)) (c : App.Commit) :
    (App.insertGrouped m c).map Prod.fst
      = if c.repoName ∈ m.map Prod.fst then m.map Prod.fst
        else m.map Prod.fst ++ [c.repoName] := by
  induction m with
  | nil => simp [App.insertGrouped]
  | cons kv rest ih =>
    obtain ⟨k, v⟩ := kv
    by_cases hk : k = c.repoName
    · subst hk
      simp [App.insertGrouped]
    · have hk' : ¬ c.repoName = k := fun h => hk h.symm
      by_cases hm : c.repoName ∈ rest.map Prod.fst
      · simp [App.insertGrouped, hk, ih, hm, hk']
      · simp [App.insertGrouped, hk, ih, hm, hk']

/-- Helper: the key sequence produced by the grouping fold is the
first-appearance fold over the repository names. -/
theorem App.groupByRepo_loop_keys (commits : List App.Commit) :
    ∀ m : List (String × List App.Commit),
      (commits.foldl App.insertGrouped m).map Prod.fst
        = commits.foldl
            (fun acc c => if c.repoName ∈ acc then acc else acc ++ [c.repoName])
            (m.map Prod.fst) := by
  induction commits with
  | nil => intro m; rfl
  | cons c cs ih =>
    intro m
    simp only [List.foldl_cons]
    rw [ih (App.insertGrouped m c), App.insertGrouped_keys]

/-- Claim C8 amended: the grouped collection built by `GenerateSummary`
has one entry per distinct repository name, its association list is in
first-appearance order, and each entry holds exactly that repository's
commits in input order.  However — see the counterexample — the rendered
digest lists the groups in the Go map's iteration order, an arbitrary
permutation of these entries, so the group order of the prompt and prompt
equality across invocations are NOT determined by the input list. -/
theorem generateSummary_grouping_firstSeen (commits : List App.Commit) :
    (App.groupByRepo commits).map Prod.fst
      = App.specFirstSeenOrder (commits.map App.Commit.repoName)
    ∧ ∀ r, (App.findGroup (App.groupByRepo commits) r).getD []
        = commits.filter (fun c => decide (c.repoName = r)) := by
  constructor
  · rw [App.groupByRepo, App.groupByRepo_loop_keys, App.specFirstSeenOrder, List.foldl_map]
    rfl
  · intro r
    simpa [App.findGroup] using App.groupByRepo_loop_find r commits []

def App.commitsAB : List App.Commit := [App.commitAlpha, App.commitBeta]

/-- Endpoint stub that echoes the received prompt back as the single
candidate's text, making the constructed prompt observable in the
returned summary. -/
def App.netEcho : App.GeminiRequest → Except String App.GeminiResponse :=
  fun q => .ok { candidates := [{ content := { parts :=
    [{ text := ((q.contents.headD { parts := [] }).parts.headD { text := "" }).text }] } }] }

/-- Counterexample to claim C8 as stated: on the two-commit list
`commitsAB` (first appearance order `alpha`, `beta`), reversed iteration
order is a permutation of the grouped entries — i.e. a possible Go map
iteration — yet the prompt built under it differs from the prompt built in
first-appearance order.  Hence the digest does not always list groups in
first-appearance order, and two invocations of `GenerateSummary` on the
same commit list can construct different prompt strings. -/
theorem generateSummary_order_counterexample :
    (List.reverse (App.groupByRepo App.commitsAB)).Perm (App.groupByRepo App.commitsAB)
    ∧ App.promptFor (List.reverse (App.groupByRepo App.commitsAB))
        ≠ App.promptFor (App.groupByRepo App.commitsAB)
    ∧ App.GenerateSummary App.netEcho List.reverse App.commitsAB
        = .ok (App.promptFor (List.reverse (App.groupByRepo App.commitsAB)))
    ∧ App.GenerateSummary App.netEcho id App.commitsAB
        = .ok (App.promptFor (App.groupByRepo App.commitsAB)) := by
  refine ⟨List.reverse_perm _, ?_, rfl, rfl⟩
  decide

/-! ## Package `github`, branch-aggregation variant (src/unnamed/part_007)

Namespace `GH` embeds the `github` package that fans out over branches:
`GetBranchesForRepo`, `GetCommitsForRepoSinceFromBranch`,
`GetCommitsFromAllBranches` and `GetCommitsForRepoByDay`. -/

namespace GH

structure CommitUser where
  name : String
  email : String
  date : Int
deriving Repr, DecidableEq

structure CommitInfo where
  author : CommitUser
  committer : CommitUser
  message : String
deriving Repr, DecidableEq

/-- `Commit` of the `github` package (wire shape: identifier plus nested
commit info). -/
structure Commit where
  sha : String
  commit : CommitInfo
deriving Repr, DecidableEq

structure Branch where
  name : String
  commit : Commit
  isProtected : Bool
deriving Repr, DecidableEq

/-- Environment of one `GetCommitsFromAllBranches` run for a fixed
repository: the decoded result of `GetBranchesForRepo` and, for each
cutoff and branch name, the decoded result of
`GetCommitsForRepoSinceFromBranch` (its full paginated accumulation).
`.error` models every failure path those functions return. -/
structure FetchEnv where
  branchesForRepo : Except String (List Branch)
  commitsFromBranch : Int → String → Except String (List Commit)

/-- The `for _, commit := range commits` body of
`GetCommitsFromAllBranches` (src/unnamed/part_007 lines 402-408): the
state is the key set of the `commitMap` (seen identifiers) paired with the
accumulated `allCommits`; a commit is appended only if its identifier is
unseen. -/
def addUniqueCommits : List Commit → List String × List Commit → List String × List Commit
  | [], st => st
  | c :: cs, (seen, acc) =>
    if c.sha ∈ seen then addUniqueCommits cs (seen, acc)
    else addUniqueCommits cs (c.sha :: seen, acc ++ [c])

/-- The branch loop of `GetCommitsFromAllBranches` (lines 393-409): a
failed branch fetch is logged and skipped; a successful one feeds
`addUniqueCommits`. -/
def mergeBranches (env : FetchEnv) (since : Int) :
    List Branch → List String × List Commit → List Commit
  | [], st => st.2
  | b :: bs, st =>
    match env.commitsFromBranch since b.name with
    | .error _ => mergeBranches env since bs st
    | .ok commits => mergeBranches env since bs (addUniqueCommits commits st)

/-- `GitHub.GetCommitsFromAllBranches` (src/unnamed/part_007 lines
383-416): fetch all branches (failure is fatal for the call), then merge
commits of every branch with identifier-keyed de-duplication. -/
def GetCommitsFromAllBranches (env : FetchEnv) (since : Int) :
    Except String (List Commit) :=
  match env.branchesForRepo with
  | .error e => .error ("failed to get branches: " ++ e)
  | .ok branches => .ok (mergeBranches env since branches ([], []))

/-- The `since` computation of `GetCommitsForRepoByDay` (lines 282-312):
the seven-case `switch` on the weekday of `now`, followed by the
normalization of `since` to the start of its day. -/
def sinceByDay (now : Int) : Int :=
  let since : Int :=
    match weekdayOf now with
    | .monday => addDays now (-3)
    | .tuesday => addDays now (-1)
    | .wednesday => addDays now (-1)
    | .thursday => addDays now (-1)
    | .friday => addDays now (-1)
    | .saturday => addDays now (-1)
    | .sunday => addDays now (-1)
  startOfDay since

/-- `GitHub.GetCommitsForRepoByDay` (src/unnamed/part_007 lines 281-315). -/
def GetCommitsForRepoByDay (env : FetchEnv) (now : Int) : Except String (List Commit) :=
  GetCommitsFromAllBranches env (sinceByDay now)

/-- Invariant of the merge state: the accumulated commits have pairwise
distinct identifiers, and the seen set holds exactly those identifiers. -/
def stInv (st : List String × List Commit) : Prop :=
  (st.2.map Commit.sha).Nodup ∧ ∀ s, s ∈ st.1 ↔ s ∈ st.2.map Commit.sha

end GH

/-- Helper: `addUniqueCommits` preserves the merge invariant, and the
identifiers of its output are exactly those of the input state plus those
of the newly processed commit page. -/
theorem GH.addUniqueCommits_spec :
    ∀ (cs : List GH.Commit) (st : List String × List GH.Commit), GH.stInv st →
      GH.stInv (GH.addUniqueCommits cs st)
      ∧ ∀ s, s ∈ (GH.addUniqueCommits cs st).2.map GH.Commit.sha
          ↔ s ∈ st.2.map GH.Commit.sha ∨ s ∈ cs.map GH.Commit.sha := by
  intro cs
  induction cs with
  | nil =>
    intro st h
    exact ⟨h, by simp [GH.addUniqueCommits]⟩
  | cons c cs ih =>
    rintro ⟨seen, acc⟩ h
    by_cases hc : c.sha ∈ seen
    · have hred : GH.addUniqueCommits (c :: cs) (seen, acc)
          = GH.addUniqueCommits cs (seen, acc) := by
        simp [GH.addUniqueCommits, hc]
      have hmem : c.sha ∈ acc.map GH.Commit.sha := (h.2 c.sha).mp hc
      obtain ⟨h1, h2⟩ := ih (seen, acc) h
      rw [hred]
      refine ⟨h1, fun s => ?_⟩
      rw [h2 s]
      constructor
      · rintro (hs | hs)
        · exact Or.inl hs
        · exact Or.inr (by simp [hs])
      · rintro (hs | hs)
        · exact Or.inl hs
        · rcases (by simpa using hs : s = c.sha ∨ s ∈ cs.map GH.Commit.sha) with rfl | hs
          · exact Or.inl hmem
          · exact Or.inr hs
    · have hred : GH.addUniqueCommits (c :: cs) (seen, acc)
          = GH.addUniqueCommits cs (c.sha :: seen, acc ++ [c]) := by
        simp [GH.addUniqueCommits, hc]
      have hnotacc : c.sha ∉ acc.map GH.Commit.sha := fun hin => hc ((h.2 c.sha).mpr hin)
      have hinv : GH.stInv (c.sha :: seen, acc ++ [c]) := by
        constructor
        · simp only [List.map_append, List.map_cons, List.map_nil]
          rw [List.nodup_append]
          exact ⟨h.1, List.nodup_singleton _, by
            intro x hx hx1
            simp only [List.mem_singleton] at hx1
            subst hx1
            exact hnotacc hx⟩
        · intro s
          simp only [List.mem_cons, List.map_append, List.map_cons, List.map_nil,
            List.mem_append, List.mem_singleton]
          rw [h.2 s]
          tauto
      obtain ⟨h1, h2⟩ := ih (c.sha :: seen, acc ++ [c]) hinv
      rw [hred]
      refine ⟨h1, fun s => ?_⟩
      rw [h2 s]
      simp only [List.map_append, List.map_cons, List.map_nil, List.mem_append,
        List.mem_singleton, List.mem_cons]
      tauto

/-- Helper: the branch merge loop keeps identifiers pairwise distinct and
its output's identifiers are exactly the state's plus those of every
successfully fetched branch page. -/
theorem GH.mergeBranches_spec (env : GH.FetchEnv) (since : Int) :
    ∀ (bs : List GH.Branch) (st : List String × List GH.Commit), GH.stInv st →
      ((GH.mergeBranches env since bs st).map GH.Commit.sha).Nodup
      ∧ ∀ s, s ∈ (GH.mergeBranches env since bs st).map GH.Commit.sha
          ↔ s ∈ st.2.map GH.Commit.sha
            ∨ ∃ b ∈ bs, ∃ l, env.commitsFromBranch since b.name = .ok l
                ∧ s ∈ l.map GH.Commit.sha := by
  intro bs
  induction bs with
  | nil =>
    intro st h
    exact ⟨h.1, by simp [GH.mergeBranches]⟩
  | cons b bs ih =>
    intro st h
    cases heq : env.commitsFromBranch since b.name with
    | error e =>
      have hred : GH.mergeBranches env since (b :: bs) st
          = GH.mergeBranches env since bs st := by
        simp [GH.mergeBranches, heq]
      obtain ⟨h1, h2⟩ := ih st h
      rw [hred]
      refine ⟨h1, fun s => ?_⟩
      rw [h2 s]
      simp only [List.mem_cons]
      constructor
      · rintro (hs | ⟨b', hb', hl⟩)
        · exact Or.inl hs
        · exact Or.inr ⟨b', Or.inr hb', hl⟩
      · rintro (hs | ⟨b', hb' | hb', l, hl, hsl⟩)
        · exact Or.inl hs
        · subst hb'
          rw [heq] at hl
          exact absurd hl (by simp)
        · exact Or.inr ⟨b', hb', l, hl, hsl⟩
    | ok commits =>
      have hred : GH.mergeBranches env since (b :: bs) st
          = GH.mergeBranches env since bs (GH.addUniqueCommits commits st) := by
        simp [GH.mergeBranches, heq]
      obtain ⟨ha1, ha2⟩ := GH.addUniqueCommits_spec commits st h
      obtain ⟨h1, h2⟩ := ih (GH.addUniqueCommits commits st) ha1
      rw [hred]
      refine ⟨h1, fun s => ?_⟩
      rw [h2 s, ha2 s]
      simp only [List.mem_cons]
      constructor
      · rintro ((hs | hs) | ⟨b', hb', hl⟩)
        · exact Or.inl hs
        · exact Or.inr ⟨b, Or.inl rfl, commits, heq, hs⟩
        · exact Or.inr ⟨b', Or.inr hb', hl⟩
      · rintro (hs | ⟨b', hb' | hb', l, hl, hsl⟩)
        · exact Or.inl (Or.inl hs)
        · subst hb'
          rw [heq] at hl
          have : commits = l := by
            injection hl
          subst this
          exact Or.inl (Or.inr hsl)
        · exact Or.inr ⟨b', hb', l, hl, hsl⟩

/-! ### Claim C1: de-duplication across branches -/

/-- Claim C1: whenever `GetCommitsFromAllBranches` returns `.ok cs`, the
returned records have pairwise distinct commit identifiers; an identifier
occurs in the result exactly when it is reachable from some branch whose
fetch succeeded (so a commit shared by two or more branches contributes a
record); and every identifier present occurs exactly once. -/
theorem getCommitsFromAllBranches_unique (env : GH.FetchEnv) (since : Int)
    (branches : List GH.Branch) (cs : List GH.Commit)
    (hb : env.branchesForRepo = .ok branches)
    (h : GH.GetCommitsFromAllBranches env since = .ok cs) :
    ((cs.map GH.Commit.sha).Nodup
      ∧ ∀ s, s ∈ cs.map GH.Commit.sha
          ↔ ∃ b ∈ branches, ∃ l, env.commitsFromBranch since b.name = .ok l
              ∧ s ∈ l.map GH.Commit.sha)
    ∧ ∀ s, s ∈ cs.map GH.Commit.sha → (cs.map GH.Commit.sha).count s = 1 := by
  have hcs : cs = GH.mergeBranches env since branches ([], []) := by
    rw [GH.GetCommitsFromAllBranches, hb] at h
    exact (Except.ok.inj h).symm
  have hinv : GH.stInv ([], []) := ⟨List.nodup_nil, by simp⟩
  obtain ⟨h1, h2⟩ := GH.mergeBranches_spec env since branches ([], []) hinv
  subst hcs
  refine ⟨⟨h1, fun s => ?_⟩, fun s hs => List.count_eq_one_of_mem h1 hs⟩
  rw [h2 s]
  simp

/-- Concrete run for claim C1: branches `main` and `dev` share the
ancestor commit `aaaaaaaa`; `main` additionally has `mmmmmmmm`, `dev`
additionally has `dddddddd`. -/
def GH.userA : GH.CommitUser := { name := "ann", email := "a@x", date := 0 }

def GH.commitShared : GH.Commit :=
  { sha := "aaaaaaaa", commit := { author := GH.userA, committer := GH.userA, message := "shared ancestor" } }

def GH.commitMainOnly : GH.Commit :=
  { sha := "mmmmmmmm", commit := { author := GH.userA, committer := GH.userA, message := "on main" } }

def GH.commitDevOnly : GH.Commit :=
  { sha := "dddddddd", commit := { author := GH.userA, committer := GH.userA, message := "on dev" } }

def GH.branchMain : GH.Branch :=
  { name := "main", commit := GH.commitMainOnly, isProtected := false }

def GH.branchDev : GH.Branch :=
  { name := "dev", commit := GH.commitDevOnly, isProtected := false }

def GH.envShared : GH.FetchEnv :=
  { branchesForRepo := .ok [GH.branchMain, GH.branchDev]
    commitsFromBranch := fun _ branchName =>
      if branchName = "main" then .ok [GH.commitMainOnly, GH.commitShared]
      else .ok [GH.commitDevOnly, GH.commitShared] }

theorem getCommitsFromAllBranches_unique_witness :
    GH.GetCommitsFromAllBranches GH.envShared 0
      = .ok [GH.commitMainOnly, GH.commitShared, GH.commitDevOnly]
    ∧ (([GH.commitMainOnly, GH.commitShared, GH.commitDevOnly].map GH.Commit.sha).count
        "aaaaaaaa") = 1 :=
  ⟨rfl,
    (getCommitsFromAllBranches_unique GH.envShared 0 [GH.branchMain, GH.branchDev]
        [GH.commitMainOnly, GH.commitShared, GH.commitDevOnly] rfl rfl).2
      "aaaaaaaa" (by decide)⟩

/-! ### Claim C7: zero branches / zero commits -/

/-- Helper: when every branch fetch yields an empty page, the merge loop
returns the accumulated commits unchanged. -/
theorem GH.mergeBranches_all_empty (env : GH.FetchEnv) (since : Int) :
    ∀ (bs : List GH.Branch) (st : List String × List GH.Commit),
      (∀ b ∈ bs, env.commitsFromBranch since b.name = .ok []) →
      GH.mergeBranches env since bs st = st.2 := by
  intro bs
  induction bs with
  | nil => intro st _; rfl
  | cons b bs ih =>
    intro st h
    have hb : env.commitsFromBranch since b.name = .ok [] := h b (by simp)
    have hred : GH.mergeBranches env since (b :: bs) st
        = GH.mergeBranches env since bs (GH.addUniqueCommits [] st) := by
      simp [GH.mergeBranches, hb]
    rw [hred]
    exact ih st (fun b' hb' => h b' (by simp [hb']))

/-- Claim C7: for a repository whose branch listing succeeds with zero
branches, and likewise for one all of whose branches yield zero commits
after the cutoff, `GetCommitsFromAllBranches` returns `.ok []` — the empty
sequence with a nil error, not an error value. -/
theorem getCommitsFromAllBranches_empty (env : GH.FetchEnv) (since : Int)
    (bs : List GH.Branch)
    (hb : env.branchesForRepo = .ok bs)
    (hempty : ∀ b ∈ bs, env.commitsFromBranch since b.name = .ok []) :
    GH.GetCommitsFromAllBranches env since = .ok [] := by
  have hok : GH.GetCommitsFromAllBranches env since
      = .ok (GH.mergeBranches env since bs ([], [])) := by
    rw [GH.GetCommitsFromAllBranches, hb]
  rw [hok, GH.mergeBranches_all_empty env since bs ([], []) hempty]

/-- Concrete runs for claim C7: a repository with no branches at all, and
one with two branches that both yield an empty commit page. -/
def GH.envNoBranches : GH.FetchEnv :=
  { branchesForRepo := .ok []
    commitsFromBranch := fun _ _ => .ok [] }

def GH.envQuietBranches : GH.FetchEnv :=
  { branchesForRepo := .ok [GH.branchMain, GH.branchDev]
    commitsFromBranch := fun _ _ => .ok [] }

theorem getCommitsFromAllBranches_empty_witness :
    GH.GetCommitsFromAllBranches GH.envNoBranches 0 = .ok []
    ∧ GH.GetCommitsFromAllBranches GH.envQuietBranches 0 = .ok [] :=
  ⟨getCommitsFromAllBranches_empty GH.envNoBranches 0 [] rfl (by intro b hb; cases hb),
    getCommitsFromAllBranches_empty GH.envQuietBranches 0 [GH.branchMain, GH.branchDev] rfl
      (fun b _ => rfl)⟩

/-! ### Claim C3: weekday-aware cutoff -/

/-- Claim C3: the cutoff computed by `GetCommitsForRepoByDay` (fed to
`GetCommitsFromAllBranches`) collapses the seven-case weekday switch to:
midnight of the day 3 days back when `now` falls on a Monday, midnight of
the day 1 day back on every other weekday.  The last conjunct checks that
the computed cutoff is indeed a midnight no later than `now`. -/
theorem getCommitsForRepoByDay_cutoff (env : GH.FetchEnv) (now : Int) :
    GH.GetCommitsForRepoByDay env now
      = GH.GetCommitsFromAllBranches env (GH.sinceByDay now)
    ∧ GH.sinceByDay now
      = (if weekdayOf now = Weekday.monday
          then startOfDay (addDays now (-3))
          else startOfDay (addDays now (-1)))
    ∧ GH.sinceByDay now % secondsPerDay = 0
    ∧ GH.sinceByDay now ≤ now := by
  refine ⟨rfl, ?_, ?_, ?_⟩
  · cases h : weekdayOf now <;> simp [GH.sinceByDay, h]
  · cases h : weekdayOf now <;>
      · simp only [GH.sinceByDay, h, startOfDay, addDays, secondsPerDay]
        omega
  · cases h : weekdayOf now <;>
      · simp only [GH.sinceByDay, h, startOfDay, addDays, secondsPerDay]
        omega

/-! ## Package `github`, go-github client variant (src/unnamed/part_008,
second file: `GetRepositoriesWithRecentCommits`, `hasCommitsSince`)

Namespace `Client` embeds the variant built on the platform client
library.  Per the source-control client contract (spec section 4.1, and
the platform API), a commit-list request *without* a branch selector
returns commits reachable from the repository's **default branch** only;
`hasCommitsSince` builds its `CommitsListOptions` with `Since` and
`PerPage: 1` but no `SHA` field, so it consults only the default branch.
The environment therefore carries per-branch commit lists plus the
default-branch name, and the no-selector call is modelled as the default
branch's list. -/

namespace Client

/-- The platform repository object, as consumed by
`GetRepositoriesWithRecentCommits` (`repo.UpdatedAt` may be absent —
the code checks `repo.UpdatedAt != nil`). -/
structure GHRepo where
  name : String
  fullName : String
  description : String
  htmlURL : String
  pushedAt : Int
  language : String
  updatedAt : Option Int
deriving Repr, DecidableEq

/-- `RepositoryInfo` (src/unnamed/part_008 lines 250-257). -/
structure RepositoryInfo where
  name : String
  fullName : String
  description : String
  url : String
  lastPush : Int
  language : String
deriving Repr, DecidableEq

/-- The `repoInfo` construction repeated in `getUserRepositories` and
`getOrganizationRepositories`. -/
def toRepositoryInfo (r : GHRepo) : RepositoryInfo :=
  { name := r.name
    fullName := r.fullName
    description := r.description
    url := r.htmlURL
    lastPush := r.pushedAt
    language := r.language }

/-- Environment of one `GetRepositoriesWithRecentCommits` run:

* `userRepos` — decoded pages of `Repositories.ListByUser`, concatenated;
* `orgRepos` — decoded result of the organization pipeline
  (`Organizations.List` + per-org `Repositories.ListByOrg`); `.error`
  models the organization-listing failure the caller logs and skips;
* `branchesOf` — the repository's branch names;
* `commitsSinceOn fullName branch` — decoded commit identifiers after the
  cutoff reachable from `branch`;
* `defaultBranch` — the branch the platform uses for a commit-list
  request with no branch selector. -/
structure ClientEnv where
  userRepos : Except String (List GHRepo)
  orgRepos : Except String (List GHRepo)
  branchesOf : String → List String
  commitsSinceOn : String → String → Except String (List String)
  defaultBranch : String → String

/-- `Client.hasCommitsSince` (src/unnamed/part_008 lines 409-424): lists
commits with `Since` and page size 1 and *no branch selector* — i.e. the
default branch — and reports whether the page is non-empty.  (Fetching
one page of size 1 is non-empty exactly when the full list is.) -/
def hasCommitsSince (env : ClientEnv) (fullName : String) : Except String Bool :=
  match env.commitsSinceOn fullName (env.defaultBranch fullName) with
  | .error e => .error e
  | .ok commits => .ok (decide (0 < commits.length))

/-- `Client.getUserRepositories` (lines 319-357): every listed repository
with a present last-update timestamp strictly after `since` (the cheap
pre-filter `repo.UpdatedAt.After(since)`). -/
def getUserRepositories (env : ClientEnv) (since : Int) :
    Except String (List RepositoryInfo) :=
  match env.userRepos with
  | .error e => .error ("error listing user repositories: " ++ e)
  | .ok repos =>
    .ok ((repos.filter (fun r =>
      match r.updatedAt with
      | some u => decide (since < u)
      | none => false)).map toRepositoryInfo)

/-- `Client.getOrganizationRepositories` (lines 359-407), modelled at the
aggregate level: the same pre-filter over the organization repositories;
`.error` is the `Organizations.List` failure. -/
def getOrganizationRepositories (env : ClientEnv) (since : Int) :
    Except String (List RepositoryInfo) :=
  match env.orgRepos with
  | .error e => .error ("error listing organizations: " ++ e)
  | .ok repos =>
    .ok ((repos.filter (fun r =>
      match r.updatedAt with
      | some u => decide (since < u)
      | none => false)).map toRepositoryInfo)

/-- `reposMap[repo.FullName] = repo`: Go map insert, overwriting the
entry for an existing key. -/
def upsert (m : List (String × RepositoryInfo)) (k : String) (v : RepositoryInfo) :
    List (String × RepositoryInfo) :=
  match m with
  | [] => [(k, v)]
  | (k0, v0) :: rest =>
    if k0 = k then (k0, v) :: rest else (k0, v0) :: upsert rest k v

/-- `Client.GetRepositoriesWithRecentCommits` (src/unnamed/part_008 lines
279-317): build `reposMap` from the pre-filtered user repositories, then
the organization repositories (an organization failure is logged and the
user map kept), then keep each entry whose `hasCommitsSince` check
succeeds with `true` (an erroring check is logged and the entry skipped).
`mapOrder` is the randomized iteration order of `reposMap`. -/
def GetRepositoriesWithRecentCommits (env : ClientEnv)
    (mapOrder : List (String × RepositoryInfo) → List (String × RepositoryInfo))
    (since : Int) : Except String (List RepositoryInfo) :=
  match getUserRepositories env since with
  | .error e => .error e
  | .ok userRepos =>
    let m0 := userRepos.foldl (fun m r => upsert m r.fullName r) []
    let m1 :=
      match getOrganizationRepositories env since with
      | .error _ => m0
      | .ok orgRepos => orgRepos.foldl (fun m r => upsert m r.fullName r) m0
    .ok ((mapOrder m1).foldl (fun out kv =>
      match hasCommitsSince env kv.1 with
      | .error _ => out
      | .ok true => out ++ [kv.2]
      | .ok false => out) [])

/-- Concrete run exposing the default-branch restriction: repository
`u/r` passes the pre-filter (updated after the cutoff 0); its default
branch `main` has no commit after the cutoff while its branch `dev` has
one. -/
def repoFeature : GHRepo :=
  { name := "r"
    fullName := "u/r"
    description := ""
    htmlURL := ""
    pushedAt := 90
    language := "Go"
    updatedAt := some 100 }

def envFeatureBranch : ClientEnv :=
  { userRepos := .ok [repoFeature]
    orgRepos := .ok []
    branchesOf := fun fullName => if fullName = "u/r" then ["main", "dev"] else []
    commitsSinceOn := fun fullName branch =>
      if fullName = "u/r" ∧ branch = "dev" then .ok ["abcd1234"] else .ok []
    defaultBranch := fun _ => "main" }

end Client

/-! ### Claim C6: the authoritative commit check -/

/-- Claim C6 (failing input): repository `u/r` passes the update-timestamp
pre-filter and has a commit after the cutoff on its branch `dev`, yet
`GetRepositoriesWithRecentCommits` returns the empty report:
`hasCommitsSince` consulted only the default branch `main` (`.ok false`),
although the claim — and the source's own comment, "Check if there are
actual commits in the last 7 days across all branches" — requires the
check to see commits on any branch. -/
theorem getRepositoriesWithRecentCommits_defaultBranchOnly :
    Client.GetRepositoriesWithRecentCommits Client.envFeatureBranch id 0 = .ok []
    ∧ Client.getUserRepositories Client.envFeatureBranch 0
        = .ok [Client.toRepositoryInfo Client.repoFeature]
    ∧ "dev" ∈ Client.envFeatureBranch.branchesOf "u/r"
    ∧ Client.envFeatureBranch.commitsSinceOn "u/r" "dev" = .ok ["abcd1234"]
    ∧ Client.hasCommitsSince Client.envFeatureBranch "u/r" = .ok false := by
  refine ⟨rfl, rfl, ?_, ?_, rfl⟩
  · decide
  · rfl
